import Mathlib

/-!
Verification of the transcript parser and streaming session controller of the
`completeme` tool (src/src/main.rs), as a shallow embedding in Lean.

Files are modelled as `List Char` (the decoded UTF-8 text of the file).
`BufRead::lines` is modelled by `fileLines`: split on the newline character,
drop the final empty segment produced by a trailing newline, and strip a
single carriage return at the end of every newline-terminated line.
Rust's `str::trim` is modelled with `Char.isWhitespace` (space, tab, CR, LF),
which covers every character appearing in this development.
-/

def strL (s : String) : List Char := s.data

/-- The sentinel separating turns: `const DELIMITER: &str = "===";`. -/
def DELIMITER : List Char := strL ("===")

/-- Rust `str::trim_start`. -/
def trimL (x : List Char) : List Char := x.dropWhile Char.isWhitespace

/-- Rust `str::trim_end`. -/
def trimR (x : List Char) : List Char := (x.reverse.dropWhile Char.isWhitespace).reverse

/-- Rust `str::trim`. -/
def trim (x : List Char) : List Char := trimL (trimR x)

/-- Rust `str::trim_end_matches('\n')`: removes every trailing newline char. -/
def trimEndNl (x : List Char) : List Char := (x.reverse.dropWhile (fun c => c == '\n')).reverse

/-- Split a character sequence at newline characters; the newline is consumed.
The result is never empty; its last segment is the text after the last newline. -/
def splitNl : List Char → List (List Char)
  | [] => [[]]
  | c :: rest =>
    if c = '\n' then [] :: splitNl rest
    else (splitNl rest).modifyHead (fun s => c :: s)

/-- `BufRead::lines` strips one trailing CR from a newline-terminated line. -/
def rstripCR (l : List Char) : List Char :=
  if l.getLast? = some '\r' then l.dropLast else l

/-- The sequence of lines `reader.lines()` yields for a file with this content. -/
def fileLines (content : List Char) : List (List Char) :=
  let segs := splitNl content
  (segs.dropLast).map rstripCR ++ (if segs.getLastD [] = [] then [] else [segs.getLastD []])

inductive Role
  | user
  | assistant
  deriving DecidableEq

/-- One chat message, as built by the `ChatCompletionRequest*MessageArgs`
builders in `parse_chat`: a role and the committed block content. -/
structure Msg where
  role : Role
  content : List Char
  deriving DecidableEq

/-- The mutable state of `parse_chat`'s loop: `messages`, `current`, `is_user`.
(`has_pending_user_msg` is determined by the final state, see `parseLines`.) -/
structure PState where
  messages : List Msg
  current : List Char
  is_user : Bool
  deriving DecidableEq

def initPS : PState := ⟨[], [], true⟩

/-- One iteration of the `while let Some(line_result)` loop of `parse_chat`
(src/src/main.rs lines 74-98). -/
def processLine (s : PState) (line : List Char) : PState :=
  if trim line = DELIMITER then
    if (trim s.current).isEmpty then s
    else
      { messages := s.messages ++ [⟨if s.is_user then Role.user else Role.assistant, trimEndNl s.current⟩]
      , current := []
      , is_user := !s.is_user }
  else { s with current := s.current ++ line ++ ['\n'] }

def pstate (ls : List (List Char)) : PState := ls.foldl processLine initPS

/-- `parse_chat` on a list of successfully read lines: the loop, then the
end-of-input commit (src/src/main.rs lines 100-110).  Note the source builds
the final unterminated block with `ChatCompletionRequestUserMessageArgs`
unconditionally, so its role is always `User`; `has_pending_user_msg` is set
to `is_user`. -/
def parseLines (ls : List (List Char)) : List Msg × Bool :=
  let s := pstate ls
  if (trim s.current).isEmpty then (s.messages, false)
  else (s.messages ++ [⟨Role.user, trimEndNl s.current⟩], s.is_user)

/-- `parse_chat` on the decoded content of a readable file. -/
def parseContent (content : List Char) : List Msg × Bool := parseLines (fileLines content)

/-- An I/O error as seen by `parse_chat`: whether it is `NotFound`, and its
message (the "underlying I/O cause"). -/
structure IOErr where
  notFound : Bool
  msg : List Char
  deriving DecidableEq

/-- The loop of `parse_chat` over line-read results: `let line = line_result?`
aborts with the first read/decode error. -/
def parseLinesE : PState → List (Except IOErr (List Char)) → Except IOErr PState
  | s, [] => Except.ok s
  | _, Except.error e :: _ => Except.error e
  | s, Except.ok l :: rest => parseLinesE (processLine s l) rest

/-- `parse_chat` (src/src/main.rs lines 59-111).  Its input is the result of
`File::open` — an error, or the list of per-line read results.  The source
tests only `file_open_result.is_err()`, so ANY open failure yields the empty
chat; errors from `lines()` (unreadable bytes, invalid UTF-8) surface via `?`. -/
def parse_chat (openRes : Except IOErr (List (Except IOErr (List Char)))) :
    Except IOErr (List Msg × Bool) :=
  match openRes with
  | Except.error _ => Except.ok ([], false)
  | Except.ok lineResults =>
    match parseLinesE initPS lineResults with
    | Except.error e => Except.error e
    | Except.ok s =>
      Except.ok (if (trim s.current).isEmpty then (s.messages, false)
                 else (s.messages ++ [⟨Role.user, trimEndNl s.current⟩], s.is_user))

def exceptIsOk (r : Except IOErr (List Msg × Bool)) : Bool :=
  match r with
  | Except.ok _ => true
  | Except.error _ => false

/-- One item pulled from the completion stream: a text fragment (one choice's
`delta.content`) or a stream error. -/
inductive Chunk
  | ok (text : List Char)
  | err (cause : List Char)
  deriving DecidableEq

def textOf : Chunk → List Char
  | Chunk.ok t => t
  | Chunk.err _ => []

def isOkChunk : Chunk → Bool
  | Chunk.ok _ => true
  | Chunk.err _ => false

/-- Bytes `writeln!(file_writer, "\n[Error: {}]", e)` appends to the file. -/
def errLine (cause : List Char) : List Char :=
  '\n' :: (strL ("[Error: ") ++ cause ++ strL ("]") ++ ['\n'])

/-- The stream-draining loop of `main` (src/src/main.rs lines 272-296):
accumulates file bytes, display (stdout) bytes, and `assistant_response_started`;
an error chunk appends the diagnostic line to the file only and breaks. -/
def drainGo : List Chunk → List Char → List Char → Bool → List Char × List Char × Bool
  | [], f, d, st => (f, d, st)
  | Chunk.ok t :: rest, f, d, st => drainGo rest (f ++ t) (d ++ t) (st || !t.isEmpty)
  | Chunk.err e :: _, f, d, st => (f ++ errLine e, d, st)

def drain (chunks : List Chunk) : List Char × List Char × Bool := drainGo chunks [] [] false

/-- Observable outcome of the streaming part of `main`: bytes appended to the
transcript file, bytes written to the display, the final value of
`assistant_response_started`, and whether the "Assistant did not provide a
content response." message is printed. -/
structure SessionOut where
  fileAppend : List Char
  display : List Char
  started : Bool
  reportedNoContent : Bool
  deriving DecidableEq

/-- The session part of `main` after a successful `create_stream` call
(src/src/main.rs lines 251-308): write the opening delimiter if a user turn is
pending, drain the stream, then finalize (closing newline + delimiter) exactly
when `assistant_response_started`. -/
def runSession (pending : Bool) (chunks : List Chunk) : SessionOut :=
  let pre := if pending then DELIMITER ++ ['\n'] else []
  let r := drain chunks
  let st := r.2.2
  { fileAppend := pre ++ r.1 ++ (if st then '\n' :: (DELIMITER ++ ['\n']) else [])
  , display := r.2.1 ++ (if st then ['\n'] else [])
  , started := st
  , reportedNoContent := !st }

/-- The transcript file content after one run of `main` against a file with
the given content: parse, exit untouched when there is nothing to send,
otherwise append the session's output. -/
def sessionFile (content : List Char) (chunks : List Chunk) : List Char :=
  let p := parseContent content
  if p.1.isEmpty && !p.2 then content
  else content ++ (runSession p.2 chunks).fileAppend

/-- Events of one session, in program order, for temporal claims. -/
inductive Ev
  | request
  | writeDelim
  | fragWrite (t : List Char)
  | errWrite (c : List Char)
  | closeDelim
  deriving DecidableEq

def drainEvs : List Chunk → List Ev
  | [] => []
  | Chunk.ok t :: rest => Ev.fragWrite t :: drainEvs rest
  | Chunk.err e :: _ => [Ev.errWrite e]

/-- Ordered trace of `main` after parsing: the nothing-to-send early exit,
else the `create_stream` request (line 251), then the opening delimiter write
(lines 255-270), then the drain loop, then finalize. -/
def sessionEvents (hasMsgs pending : Bool) (chunks : List Chunk) : List Ev :=
  if !hasMsgs && !pending then []
  else Ev.request ::
    ((if pending then [Ev.writeDelim] else []) ++ drainEvs chunks ++
      (if (drain chunks).2.2 then [Ev.closeDelim] else []))

/-- Index of the first occurrence of an event (length if absent). -/
def idxOf (a : Ev) : List Ev → Nat
  | [] => 0
  | b :: t => if a = b then 0 else idxOf a t + 1

/-! ## The claims as stated, for refutation

Each `claimedCnAt` formalizes the words of claim Cn so that it can be tested
at a concrete input.  These definitions follow the SPEC's words, to be
compared with the behavior of the definitions above, which follow the source. -/

/-- Claim C1 at one input: the trailing block is committed with the role
`currentRole` held when it began accumulating (User after an even number of
committed turns), and `pendingUserTurn` is true exactly when that role is User. -/
abbrev claimedC1At (F : List Char) : Prop :=
  trim (pstate (fileLines F)).current ≠ [] →
    ((parseContent F).1.getLast?.map Msg.role
        = some (if (pstate (fileLines F)).is_user then Role.user else Role.assistant)
      ∧ ((parseContent F).2 = true
          ↔ (if (pstate (fileLines F)).is_user then Role.user else Role.assistant) = Role.user))

/-- No two adjacent roles equal (Bool-valued). -/
def noAdjSame : List Role → Bool
  | [] => true
  | [_] => true
  | a :: b :: t => if a = b then false else noAdjSame (b :: t)

/-- First message (if any) has role User (Bool-valued). -/
def headIsUser : List Msg → Bool
  | [] => true
  | m :: _ =>
    match m.role with
    | Role.user => true
    | Role.assistant => false

/-- Claim C2 at one input: roles alternate strictly starting with User. -/
abbrev claimedC2At (F : List Char) : Prop :=
  noAdjSame ((parseContent F).1.map Msg.role) = true ∧ headIsUser (parseContent F).1 = true

/-- Claim C3 at one input with `pendingUserTurn = true`: the opening delimiter
write happens strictly before the external request is issued. -/
abbrev claimedC3At (hasMsgs : Bool) (chunks : List Chunk) : Prop :=
  idxOf Ev.writeDelim (sessionEvents hasMsgs true chunks)
    < idxOf Ev.request (sessionEvents hasMsgs true chunks)

/-- Claim C4: on the stream `["partial", error "boom"]`, the file ends in
`...partial\n[Error: boom]\n` with no closing marker after it, and
`assistant_response_started` is true at finalize. -/
abbrev claimedC4 : Prop :=
  let out := runSession true [Chunk.ok (strL ("partial")), Chunk.err (strL ("boom"))]
  (strL ("partial") ++ errLine (strL ("boom"))).isSuffixOf out.fileAppend = true
    ∧ out.started = true

/-- The spec's words for C5: "trimmed of a single trailing newline". -/
def trimOneNl (x : List Char) : List Char :=
  if x.getLast? = some '\n' then x.dropLast else x

/-- Claim C5 at one input: for a fully successful session (all chunks are
text, at least one non-empty), re-parsing the produced file yields the input
turns plus one Assistant turn whose content is the concatenated fragments
trimmed of a single trailing newline, with `pendingUserTurn = false`. -/
abbrev claimedC5At (F : List Char) (chunks : List Chunk) : Prop :=
  (∀ c ∈ chunks, isOkChunk c = true) → (∃ c ∈ chunks, textOf c ≠ []) →
    parseContent (sessionFile F chunks)
      = ((parseContent F).1 ++ [⟨Role.assistant, trimOneNl ((chunks.map textOf).flatten)⟩], false)

/-- Concatenate lines, restoring one newline per line. -/
def joinNlMap (ls : List (List Char)) : List Char := (ls.map (fun l => l ++ ['\n'])).flatten

/-- Claim C6 at one input: nothing is dropped except exact delimiter lines and
a single trailing newline per committed block — i.e. the committed contents,
each with its one trailing newline restored, reconstruct exactly the
non-delimiter lines of the file. -/
abbrev claimedC6At (F : List Char) : Prop :=
  joinNlMap ((parseContent F).1.map Msg.content)
    = joinNlMap ((fileLines F).filter (fun l => decide (trim l ≠ DELIMITER)))

/-- Claim C7, the failure half, at one open error: a file that exists but
cannot be read surfaces a ParseError rather than being recovered locally. -/
abbrev claimedC7At (e : IOErr) : Prop :=
  e.notFound = false → exceptIsOk (parse_chat (Except.error e)) = false

/-- C1 counterexample: for the file `"u\n===\na"` the trailing block began
accumulating with `currentRole = Assistant` (one committed turn), but the code
commits it with role User (src/src/main.rs line 101 uses the user builder
unconditionally). -/
theorem c1_role_counterexample : ¬ claimedC1At (strL ("u\n===\na")) := by decide

/-- C2 counterexample: parsing `"q\n===\nr"` yields two adjacent User turns,
violating the alternation invariant as stated. -/
theorem c2_alternation_counterexample : ¬ claimedC2At (strL ("q\n===\nr")) := by decide

/-- C3 counterexample: with a pending user turn and an empty stream, the
request event (line 251, `create_stream`) precedes the delimiter write
(line 268), not the other way around. -/
theorem c3_order_counterexample : ¬ claimedC3At true [] := by decide

/-- C4 counterexample: after `"partial"` then a stream error, the code still
appends the closing delimiter (because `assistant_response_started` is true),
so the file does NOT end at the diagnostic line. -/
theorem c4_stream_failure_counterexample : ¬ claimedC4 := by decide

/-- C5 counterexample: with input file `"q\n"` and single fragment `"hi\n\n"`,
re-parsing yields Assistant content `"hi"` (all trailing newlines stripped by
`trim_end_matches('\n')`), not `"hi\n"` as the claim's single-newline trim says. -/
theorem c5_roundtrip_counterexample :
    ¬ claimedC5At (strL ("q\n")) [Chunk.ok (strL ("hi\n\n"))] := by decide

/-- C6 counterexample: the file `"a\n\n"` has the single block `"a\n\n"`, but
the committed content is `"a"` — two trailing newlines were dropped, not one. -/
theorem c6_drop_counterexample : ¬ claimedC6At (strL ("a\n\n")) := by decide

/-- C7 counterexample: an open failure that is NOT "does not exist" (e.g.
permission denied on an existing file) is still recovered as the empty chat,
because the source only tests `file_open_result.is_err()`. -/
theorem c7_open_error_counterexample :
    ¬ claimedC7At ⟨false, strL ("permission denied")⟩ := by decide

/-! ## Helper lemmas: splitting, trimming -/

theorem splitNl_ne_nil : ∀ x : List Char, splitNl x ≠ [] := by
  intro x
  match x with
  | [] => simp [splitNl]
  | c :: rest =>
    by_cases h : c = '\n'
    · simp [splitNl, h]
    · simp only [splitNl, if_neg h]
      cases hs : splitNl rest with
      | nil => exact absurd hs (splitNl_ne_nil rest)
      | cons a t => simp

theorem modifyHead_append {α : Type} (f : α → α) (x y : List α) (h : x ≠ []) :
    (x ++ y).modifyHead f = x.modifyHead f ++ y := by
  cases x with
  | nil => exact absurd rfl h
  | cons a t => simp

theorem splitNl_append_nl : ∀ A B : List Char, splitNl (A ++ '\n' :: B) = splitNl A ++ splitNl B := by
  intro A B
  induction A with
  | nil => simp [splitNl]
  | cons c A ih =>
    by_cases h : c = '\n'
    · subst h
      simp [List.cons_append, splitNl, ih]
    · simp only [List.cons_append, splitNl, if_neg h, List.append_eq, ih,
        modifyHead_append _ _ _ (splitNl_ne_nil A)]

theorem splitNl_cons_ne {a : Char} {rest s : List Char} {ss : List (List Char)}
    (h : ¬ a = '\n') (hs : splitNl rest = s :: ss) :
    splitNl (a :: rest) = (a :: s) :: ss := by
  simp [splitNl, if_neg h, hs]

theorem splitNl_dest (rest : List Char) : ∃ s ss, splitNl rest = s :: ss := by
  cases hq : splitNl rest with
  | nil => exact absurd hq (splitNl_ne_nil rest)
  | cons s ss => exact ⟨s, ss, rfl⟩

theorem splitNl_no_nl {X : List Char} (h : '\n' ∉ X) : splitNl X = [X] := by
  induction X with
  | nil => rfl
  | cons c rest ih =>
    have hc : ¬ c = '\n' := fun hc => h (hc ▸ List.mem_cons_self c rest)
    have hr : '\n' ∉ rest := fun hr => h (List.mem_cons_of_mem c hr)
    exact splitNl_cons_ne hc (ih hr)

theorem mem_splitNl_sub : ∀ (X l : List Char), l ∈ splitNl X → ∀ c ∈ l, c ∈ X := by
  intro X
  induction X with
  | nil =>
    intro l hl c hc
    simp [splitNl] at hl
    subst hl
    simp at hc
  | cons a rest ih =>
    intro l hl c hc
    by_cases h : a = '\n'
    · rw [show splitNl (a :: rest) = [] :: splitNl rest from by simp [splitNl, h]] at hl
      rcases List.mem_cons.mp hl with hl1 | hl1
      · subst hl1; simp at hc
      · exact List.mem_cons_of_mem a (ih l hl1 c hc)
    · obtain ⟨s, ss, hs⟩ := splitNl_dest rest
      rw [splitNl_cons_ne h hs] at hl
      rcases List.mem_cons.mp hl with hl1 | hl1
      · subst hl1
        rcases List.mem_cons.mp hc with hc1 | hc1
        · exact hc1 ▸ List.mem_cons_self a rest
        · exact List.mem_cons_of_mem a (ih s (by rw [hs]; exact List.mem_cons_self s ss) c hc1)
      · exact List.mem_cons_of_mem a
          (ih l (by rw [hs]; exact List.mem_cons_of_mem s hl1) c hc)

theorem nl_not_mem_splitNl : ∀ (X l : List Char), l ∈ splitNl X → '\n' ∉ l := by
  intro X
  induction X with
  | nil =>
    intro l hl
    simp [splitNl] at hl
    subst hl; simp
  | cons a rest ih =>
    intro l hl
    by_cases h : a = '\n'
    · rw [show splitNl (a :: rest) = [] :: splitNl rest from by simp [splitNl, h]] at hl
      rcases List.mem_cons.mp hl with hl1 | hl1
      · subst hl1; simp
      · exact ih l hl1
    · obtain ⟨s, ss, hs⟩ := splitNl_dest rest
      rw [splitNl_cons_ne h hs] at hl
      rcases List.mem_cons.mp hl with hl1 | hl1
      · subst hl1
        intro hmem
        rcases List.mem_cons.mp hmem with hc | hc
        · exact h hc.symm
        · exact ih s (by rw [hs]; exact List.mem_cons_self s ss) hc
      · exact ih l (by rw [hs]; exact List.mem_cons_of_mem s hl1)

theorem join_splitNl : ∀ X : List Char, joinNlMap (splitNl X) = X ++ ['\n'] := by
  intro X
  induction X with
  | nil => rfl
  | cons c rest ih =>
    by_cases h : c = '\n'
    · subst h
      rw [show splitNl ('\n' :: rest) = [] :: splitNl rest from by simp [splitNl]]
      simp only [joinNlMap, List.map_cons, List.flatten_cons] at ih ⊢
      rw [ih]
      simp
    · obtain ⟨s, ss, hs⟩ := splitNl_dest rest
      rw [splitNl_cons_ne h hs]
      rw [hs] at ih
      simp only [joinNlMap, List.map_cons, List.flatten_cons] at ih ⊢
      simp only [List.cons_append, List.append_assoc] at ih ⊢
      rw [ih]

theorem rstripCR_eq_self {l : List Char} (h : l.getLast? ≠ some '\r') : rstripCR l = l := by
  simp [rstripCR, if_neg h]

theorem rstripCR_of_not_mem {l : List Char} (h : '\r' ∉ l) : rstripCR l = l := by
  apply rstripCR_eq_self
  intro hc
  exact h (List.mem_of_mem_getLast? (by simp [hc]))

theorem fileLines_nl_terminated (A : List Char) :
    fileLines (A ++ ['\n']) = (splitNl A).map rstripCR := by
  have h1 : splitNl (A ++ ['\n']) = splitNl A ++ [[]] := by
    have := splitNl_append_nl A []
    simpa [splitNl] using this
  simp [fileLines, h1, List.getLastD_concat]

theorem trimR_append_ws {X : List Char} {c : Char} (h : c.isWhitespace = true) :
    trimR (X ++ [c]) = trimR X := by
  simp [trimR, List.dropWhile_cons_of_pos, h]

theorem trim_append_nl (X : List Char) : trim (X ++ ['\n']) = trim X := by
  unfold trim
  rw [trimR_append_ws (by decide)]

theorem mem_trimR {x : List Char} {c : Char} (hc : c ∈ trimR x) : c ∈ x := by
  simp only [trimR, List.mem_reverse] at hc
  exact List.mem_reverse.mp (List.dropWhile_sublist _ |>.mem hc)

theorem trim_eq_nil_iff {x : List Char} :
    trim x = [] ↔ ∀ c ∈ x, c.isWhitespace = true := by
  constructor
  · intro h c hc
    have h1 : ∀ c ∈ trimR x, c.isWhitespace = true := by
      intro d hd
      exact List.dropWhile_eq_nil_iff.mp h d hd
    by_cases hw : c.isWhitespace = true
    · exact hw
    · exfalso
      have hrev : c ∈ x.reverse := List.mem_reverse.mpr hc
      rw [← List.takeWhile_append_dropWhile (p := Char.isWhitespace) (l := x.reverse)] at hrev
      rcases List.mem_append.mp hrev with hr | hr
      · exact hw (List.mem_takeWhile_imp hr)
      · exact hw (h1 c (by simpa [trimR] using hr))
  · intro h
    have h1 : trimR x = [] := by
      simp only [trimR, List.reverse_eq_nil_iff]
      exact List.dropWhile_eq_nil_iff.mpr (fun c hc => h c (List.mem_reverse.mp hc))
    simp [trim, h1, trimL]

theorem trim_ne_nil_of_mem {x : List Char} {c : Char} (hc : c ∈ x)
    (hw : c.isWhitespace = false) : trim x ≠ [] := by
  intro h
  rw [trim_eq_nil_iff.mp h c hc] at hw
  exact absurd hw (by decide)

theorem trimEndNl_append_nl (x : List Char) : trimEndNl (x ++ ['\n']) = trimEndNl x := by
  simp [trimEndNl, List.dropWhile_cons_of_pos]

theorem trimEndNl_decomp (x : List Char) :
    ∃ k, x = trimEndNl x ++ List.replicate k '\n' := by
  refine ⟨(x.reverse.takeWhile (fun c => c == '\n')).length, ?_⟩
  have htake : x.reverse.takeWhile (fun c => c == '\n')
      = List.replicate (x.reverse.takeWhile (fun c => c == '\n')).length '\n' := by
    apply List.eq_replicate_of_mem
    intro b hb
    have hb2 := List.mem_takeWhile_imp hb
    simp only [beq_iff_eq] at hb2
    exact hb2
  conv_lhs => rw [← List.reverse_reverse x,
    ← List.takeWhile_append_dropWhile (p := fun c => c == '\n') (l := x.reverse)]
  rw [List.reverse_append]
  conv_lhs => rw [htake]
  simp only [List.reverse_replicate]
  rfl

theorem infix_concat_drop {l X : List Char} {c : Char}
    (h : l <:+: X ++ [c]) (hc : c ∉ l) (hne : l ≠ []) : l <:+: X := by
  obtain ⟨s, t, hst⟩ := h
  rcases List.eq_nil_or_concat' t with ht | ⟨t', b, ht⟩
  · subst ht
    exfalso
    simp only [List.append_nil] at hst
    have hlast : (s ++ l).getLast? = some c := by
      rw [hst, List.getLast?_concat]
    have hsome : l.getLast? = some c := by
      rw [List.getLast?_append] at hlast
      cases hg : l.getLast? with
      | none => exact absurd (List.getLast?_eq_none_iff.mp hg) hne
      | some a =>
        rw [hg] at hlast
        simp only [Option.or_some] at hlast
        exact hlast
    exact hc (List.mem_of_mem_getLast? (by simp [hsome]))
  · subst ht
    have hst2 : (s ++ l ++ t') ++ [b] = X ++ [c] := by
      simpa [List.append_assoc] using hst
    have := (List.append_inj' hst2 rfl).1
    exact ⟨s, t', by simpa [List.append_assoc] using this⟩

theorem infix_drop_replicate {l A : List Char} :
    ∀ k, l <:+: A ++ List.replicate k '\n' → '\n' ∉ l → l ≠ [] → l <:+: A := by
  intro k
  induction k generalizing A with
  | zero => intro h _ _; simpa using h
  | succ n ih =>
    intro h hn hne
    rw [List.replicate_succ' n '\n', ← List.append_assoc] at h
    exact ih (infix_concat_drop h hn hne) hn hne

theorem infix_trimEndNl {l x : List Char} (h : l <:+: x) (hn : '\n' ∉ l) (hne : l ≠ []) :
    l <:+: trimEndNl x := by
  obtain ⟨k, hx⟩ := trimEndNl_decomp x
  rw [hx] at h
  exact infix_drop_replicate k h hn hne

/-! ## Parser invariants: role alternation -/

/-- Role of the i-th committed turn: User at even positions. -/
def pat (i : Nat) : Role := if i % 2 = 0 then Role.user else Role.assistant

/-- Loop invariant of `parse_chat`: committed roles follow `pat`, and
`is_user` tracks the parity of the number of committed messages. -/
def InvP (s : PState) : Prop :=
  (∀ i (h : i < s.messages.length), (s.messages.get ⟨i, h⟩).role = pat i)
    ∧ s.is_user = decide (s.messages.length % 2 = 0)

theorem invP_init : InvP initPS := by
  constructor
  · intro i h
    simp [initPS] at h
  · simp [initPS]

theorem invP_step (s : PState) (l : List Char) (h : InvP s) : InvP (processLine s l) := by
  unfold processLine
  by_cases hd : trim l = DELIMITER
  · rw [if_pos hd]
    by_cases he : (trim s.current).isEmpty
    · rw [if_pos he]; exact h
    · rw [if_neg he]
      obtain ⟨h1, h2⟩ := h
      constructor
      · intro i hi
        simp only [List.length_append, List.length_cons, List.length_nil] at hi
        by_cases hlt : i < s.messages.length
        · have := h1 i hlt
          simp only [List.get_eq_getElem] at this ⊢
          rw [List.getElem_append_left hlt]
          exact this
        · have hieq : i = s.messages.length := by omega
          subst hieq
          simp only [List.get_eq_getElem]
          rw [List.getElem_append_right (Nat.le_refl _)]
          simp only [Nat.sub_self, List.getElem_cons_zero]
          rw [h2]
          by_cases hp : s.messages.length % 2 = 0
          · simp [pat, hp]
          · simp [pat, hp]
      · simp only [List.length_append, List.length_cons, List.length_nil, Nat.add_zero]
        rw [h2]
        by_cases hp : s.messages.length % 2 = 0
        · have hp1 : ¬ (s.messages.length + 1) % 2 = 0 := by omega
          simp [hp, hp1]
        · have hp1 : (s.messages.length + 1) % 2 = 0 := by omega
          simp [hp, hp1]
  · rw [if_neg hd]
    exact h

theorem invP_fold : ∀ (ls : List (List Char)) (s : PState), InvP s → InvP (ls.foldl processLine s) := by
  intro ls
  induction ls with
  | nil => intro s h; exact h
  | cons l rest ih =>
    intro s h
    exact ih (processLine s l) (invP_step s l h)

theorem invP_pstate (ls : List (List Char)) : InvP (pstate ls) :=
  invP_fold ls initPS invP_init

theorem pat_succ_ne (k : Nat) : pat k ≠ pat (k + 1) := by
  by_cases hp : k % 2 = 0
  · have hp1 : ¬ (k + 1) % 2 = 0 := by omega
    simp [pat, hp, hp1]
  · have hp1 : (k + 1) % 2 = 0 := by omega
    simp [pat, hp, hp1]

theorem noAdjSame_of_pat : ∀ (rs : List Role) (k : Nat),
    (∀ i (h : i < rs.length), rs.get ⟨i, h⟩ = pat (k + i)) → noAdjSame rs = true := by
  intro rs
  induction rs with
  | nil => intro k _; rfl
  | cons a t ih =>
    intro k hget
    cases t with
    | nil => rfl
    | cons b t2 =>
      have ha : a = pat k := by
        have := hget 0 (by simp)
        simpa using this
      have hb : b = pat (k + 1) := by
        have := hget 1 (by simp)
        simpa using this
      have hab : ¬ a = b := by
        rw [ha, hb]
        exact pat_succ_ne k
      simp only [noAdjSame, if_neg hab]
      apply ih (k + 1)
      intro i hi
      have := hget (i + 1) (by simp at hi ⊢; omega)
      simp only [List.get_eq_getElem, List.getElem_cons_succ] at this ⊢
      rw [this]
      congr 1
      omega

/-! ## Unfolding helpers -/

theorem parseLines_pending_unfold (ls : List (List Char)) (h : (parseLines ls).2 = true) :
    (trim (pstate ls).current).isEmpty = false ∧ (pstate ls).is_user = true
      ∧ (parseLines ls).1 = (pstate ls).messages ++ [⟨Role.user, trimEndNl (pstate ls).current⟩] := by
  simp only [parseLines] at h ⊢
  cases he : (trim (pstate ls).current).isEmpty with
  | true => simp [he] at h
  | false =>
    rw [he] at h
    simp only [Bool.false_eq_true, if_false] at h
    exact ⟨rfl, h, by simp⟩

theorem fold_nodelim : ∀ (ls : List (List Char)) (s : PState),
    (∀ l ∈ ls, trim l ≠ DELIMITER) →
    ls.foldl processLine s = ⟨s.messages, s.current ++ joinNlMap ls, s.is_user⟩ := by
  intro ls
  induction ls with
  | nil => intro s _; simp [joinNlMap]
  | cons l rest ih =>
    intro s h
    have hl : trim l ≠ DELIMITER := h l (List.mem_cons_self l rest)
    have hr : ∀ x ∈ rest, trim x ≠ DELIMITER := fun x hx => h x (List.mem_cons_of_mem l hx)
    simp only [List.foldl_cons]
    rw [show processLine s l = ⟨s.messages, s.current ++ l ++ ['\n'], s.is_user⟩ from by
      simp [processLine, if_neg hl]]
    rw [ih _ hr]
    simp [joinNlMap, List.append_assoc]

theorem processLine_delim_commit (s : PState) {l : List Char}
    (hd : trim l = DELIMITER) (he : (trim s.current).isEmpty = false) :
    processLine s l
      = ⟨s.messages ++ [⟨if s.is_user then Role.user else Role.assistant, trimEndNl s.current⟩],
         [], !s.is_user⟩ := by
  simp [processLine, if_pos hd, he]

/-! ## Drain-loop lemmas -/

theorem drainGo_all_ok : ∀ (chunks : List Chunk) (f d : List Char) (st : Bool),
    (∀ c ∈ chunks, isOkChunk c = true) →
    drainGo chunks f d st
      = (f ++ (chunks.map textOf).flatten, d ++ (chunks.map textOf).flatten,
         st || chunks.any (fun c => !(textOf c).isEmpty)) := by
  intro chunks
  induction chunks with
  | nil => intro f d st _; simp [drainGo]
  | cons c rest ih =>
    intro f d st h
    cases c with
    | ok t =>
      simp only [drainGo, List.map_cons, List.flatten_cons, List.any_cons]
      rw [ih _ _ _ (fun x hx => h x (List.mem_cons_of_mem _ hx))]
      simp [textOf, List.append_assoc, Bool.or_assoc]
    | err e =>
      have := h (Chunk.err e) (List.mem_cons_self _ _)
      simp [isOkChunk] at this

theorem flatten_ne_nil_exists {L : List (List Char)} (h : L.flatten ≠ []) :
    ∃ x ∈ L, x ≠ [] := by
  induction L with
  | nil => simp at h
  | cons a t ih =>
    by_cases ha : a = []
    · subst ha
      simp only [List.flatten_cons, List.nil_append] at h
      obtain ⟨x, hx, hne⟩ := ih h
      exact ⟨x, List.mem_cons_of_mem _ hx, hne⟩
    · exact ⟨a, List.mem_cons_self _ _, ha⟩

theorem any_nonempty_of_flatten {chunks : List Chunk}
    (h : (chunks.map textOf).flatten ≠ []) :
    chunks.any (fun c => !(textOf c).isEmpty) = true := by
  obtain ⟨x, hx, hne⟩ := flatten_ne_nil_exists h
  obtain ⟨c, hc, rfl⟩ := List.mem_map.mp hx
  refine List.any_eq_true.mpr ⟨c, hc, ?_⟩
  simp only [Bool.not_eq_true']
  exact List.isEmpty_eq_false.mpr hne

theorem runSession_all_ok {chunks : List Chunk}
    (hok : ∀ c ∈ chunks, isOkChunk c = true)
    (hne : (chunks.map textOf).flatten ≠ []) (pending : Bool) :
    runSession pending chunks
      = ⟨(if pending then DELIMITER ++ ['\n'] else [])
           ++ ((chunks.map textOf).flatten ++ '\n' :: (DELIMITER ++ ['\n'])),
         (chunks.map textOf).flatten ++ ['\n'], true, false⟩ := by
  have hd : drain chunks
      = ((chunks.map textOf).flatten, (chunks.map textOf).flatten, true) := by
    unfold drain
    rw [drainGo_all_ok chunks [] [] false hok]
    simp [any_nonempty_of_flatten hne]
  simp [runSession, hd, List.append_assoc]

/-! ## Session-side claims -/

theorem not_mem_drainEvs : ∀ chunks : List Chunk,
    Ev.request ∉ drainEvs chunks ∧ Ev.writeDelim ∉ drainEvs chunks := by
  intro chunks
  induction chunks with
  | nil => simp [drainEvs]
  | cons c rest ih =>
    cases c with
    | ok t => simp [drainEvs, ih.1, ih.2]
    | err e => simp [drainEvs]

/-- C3 (amended): when a user turn is pending, the opening delimiter is written
immediately AFTER the external request is issued (`create_stream` at line 251
precedes the `writeln!` at line 268), but before any fragment or error write
and before the closing delimiter; both events occur exactly once. -/
theorem c3_order_amended (hasMsgs : Bool) (chunks : List Chunk) :
    ∃ rest, sessionEvents hasMsgs true chunks = Ev.request :: Ev.writeDelim :: rest
      ∧ Ev.request ∉ rest ∧ Ev.writeDelim ∉ rest := by
  refine ⟨drainEvs chunks ++ (if (drain chunks).2.2 then [Ev.closeDelim] else []), ?_, ?_, ?_⟩
  · simp [sessionEvents]
  · intro hmem
    rcases List.mem_append.mp hmem with hm | hm
    · exact (not_mem_drainEvs chunks).1 hm
    · cases hst : (drain chunks).2.2 <;> rw [hst] at hm <;> simp at hm
  · intro hmem
    rcases List.mem_append.mp hmem with hm | hm
    · exact (not_mem_drainEvs chunks).2 hm
    · cases hst : (drain chunks).2.2 <;> rw [hst] at hm <;> simp at hm

/-- C4 (amended): after the fragment `"partial"` and then a stream error, the
drain loop stops (any later chunks are ignored), the diagnostic line is
appended, and — because `assistant_response_started` is true — finalize ALSO
appends a newline and the closing delimiter, so the file region ends in
`...partial\n[Error: <cause>]\n\n===\n` rather than at the diagnostic line. -/
theorem c4_stream_failure_amended (pending : Bool) (cause : List Char) (rest : List Chunk) :
    (runSession pending (Chunk.ok (strL ("partial")) :: Chunk.err cause :: rest)).fileAppend
        = (if pending then DELIMITER ++ ['\n'] else [])
            ++ (strL ("partial") ++ errLine cause ++ '\n' :: (DELIMITER ++ ['\n']))
      ∧ (runSession pending (Chunk.ok (strL ("partial")) :: Chunk.err cause :: rest)).started
          = true := by
  have hd : drain (Chunk.ok (strL ("partial")) :: Chunk.err cause :: rest)
      = (strL ("partial") ++ errLine cause, strL ("partial"), true) := rfl
  constructor
  · simp [runSession, hd, List.append_assoc]
  · simp [runSession, hd]

/-- C7 (amended): any failure of `File::open` — not only "does not exist" —
yields the empty chat without error; a failure while reading or decoding a
line (e.g. invalid UTF-8) surfaces as an error carrying the underlying cause. -/
theorem c7_parse_errors_amended :
    (∀ e : IOErr, parse_chat (Except.error e) = Except.ok ([], false))
      ∧ (∀ (pre : List (List Char)) (e : IOErr) (rest : List (Except IOErr (List Char))),
          parse_chat (Except.ok (pre.map Except.ok ++ Except.error e :: rest))
            = Except.error e) := by
  constructor
  · intro e; rfl
  · have key : ∀ (pre : List (List Char)) (s : PState) (e : IOErr)
        (rest : List (Except IOErr (List Char))),
        parseLinesE s (pre.map Except.ok ++ Except.error e :: rest) = Except.error e := by
      intro pre
      induction pre with
      | nil => intro s e rest; rfl
      | cons l t ih =>
        intro s e rest
        simp only [List.map_cons, List.cons_append, parseLinesE]
        exact ih (processLine s l) e rest
    intro pre e rest
    simp [parse_chat, key pre initPS e rest]

/-- C9 (confirmed): if the very first chunk is an error, nothing was written
before it, so `assistant_response_started` stays false: only the diagnostic
line is appended (no closing delimiter), the display receives nothing, and
the controller reports that no content response was produced. -/
theorem c9_first_chunk_error (pending : Bool) (cause : List Char) (rest : List Chunk) :
    runSession pending (Chunk.err cause :: rest)
      = ⟨(if pending then DELIMITER ++ ['\n'] else []) ++ errLine cause, [], false, true⟩ := by
  have hd : drain (Chunk.err cause :: rest) = (errLine cause, [], false) := rfl
  simp [runSession, hd]

theorem flatten_ne_nil_of_mem {L : List (List Char)} {x : List Char}
    (hx : x ∈ L) (hne : x ≠ []) : L.flatten ≠ [] := by
  intro h
  exact hne (List.flatten_eq_nil_iff.mp h x hx)

/-- C10 (confirmed): any non-empty fragment — whitespace included — sets
`assistant_response_started`, so a stream of non-empty fragments (e.g. all
whitespace) still makes finalize append the trailing newline and the closing
delimiter to the transcript file. -/
theorem c10_whitespace_starts (pending : Bool) (chunks : List Chunk)
    (hok : ∀ c ∈ chunks, isOkChunk c = true)
    (hne : ∃ c ∈ chunks, textOf c ≠ []) :
    (runSession pending chunks).started = true
      ∧ ∃ pre, (runSession pending chunks).fileAppend
          = pre ++ '\n' :: (DELIMITER ++ ['\n']) := by
  obtain ⟨c, hc, hcne⟩ := hne
  have hfl : (chunks.map textOf).flatten ≠ [] :=
    flatten_ne_nil_of_mem (List.mem_map_of_mem textOf hc) hcne
  rw [runSession_all_ok hok hfl pending]
  refine ⟨rfl, ⟨(if pending then DELIMITER ++ ['\n'] else []) ++ (chunks.map textOf).flatten, ?_⟩⟩
  simp [List.append_assoc]

/-! ## Parser-side claims: C1 and C2 -/

/-- C1 (amended): when the trailing block after the last delimiter is
non-empty when trimmed, `parse_chat` commits it as one final Turn whose role
is ALWAYS User (regardless of the role in effect when it began accumulating),
and sets `pendingUserTurn` to true exactly when the number of previously
committed turns is even (i.e. when `currentRole` is User). -/
theorem c1_trailing_block_amended (F : List Char)
    (h : (trim (pstate (fileLines F)).current).isEmpty = false) :
    (parseContent F).1.getLast?.map Msg.role = some Role.user
      ∧ (parseContent F).2 = decide (((parseContent F).1.length - 1) % 2 = 0) := by
  have hinv := invP_pstate (fileLines F)
  simp only [parseContent, parseLines, h, Bool.false_eq_true, if_false]
  constructor
  · simp [List.getLast?_concat]
  · simp only [List.length_append, List.length_cons, List.length_nil, Nat.zero_add,
      Nat.add_sub_cancel]
    exact hinv.2

theorem c1_trailing_block_amended_witness :
    (trim (pstate (fileLines (strL ("hi")))).current).isEmpty = false
      ∧ ((parseContent (strL ("hi"))).1.getLast?.map Msg.role = some Role.user
          ∧ (parseContent (strL ("hi"))).2
              = decide (((parseContent (strL ("hi"))).1.length - 1) % 2 = 0)) :=
  ⟨by decide, c1_trailing_block_amended (strL ("hi")) (by decide)⟩

/-- C2 (amended): the parsed turns alternate strictly starting with User
except possibly at the very last turn: the first turn (if any) is User, and
dropping the last turn leaves a strictly alternating list.  (The final
unterminated block is always committed as User, which can follow a User turn.) -/
theorem c2_alternation_amended (F : List Char) :
    noAdjSame (((parseContent F).1.map Msg.role).dropLast) = true
      ∧ headIsUser (parseContent F).1 = true := by
  have hinv := invP_pstate (fileLines F)
  have hAdjMsgs : noAdjSame ((pstate (fileLines F)).messages.map Msg.role) = true := by
    apply noAdjSame_of_pat _ 0
    intro i hi
    rw [Nat.zero_add]
    simp only [List.get_eq_getElem, List.getElem_map]
    have hi2 : i < (pstate (fileLines F)).messages.length := by simpa using hi
    have := hinv.1 i hi2
    simpa using this
  have hhead : headIsUser (pstate (fileLines F)).messages = true := by
    cases hm : (pstate (fileLines F)).messages with
    | nil => rfl
    | cons m t =>
      have h0 : 0 < (pstate (fileLines F)).messages.length := by rw [hm]; simp
      have := hinv.1 0 h0
      have hrole : m.role = Role.user := by
        have hget : (pstate (fileLines F)).messages.get ⟨0, h0⟩ = m := by
          simp only [List.get_eq_getElem]
          simp [hm]
        rw [hget] at this
        simpa [pat] using this
      simp [headIsUser, hrole]
  by_cases he : (trim (pstate (fileLines F)).current).isEmpty
  · have h1 : (parseContent F).1 = (pstate (fileLines F)).messages := by
      simp [parseContent, parseLines, he]
    rw [h1]
    constructor
    · apply noAdjSame_of_pat _ 0
      intro i hi
      rw [Nat.zero_add]
      have hi2 : i < (pstate (fileLines F)).messages.length := by
        simp only [List.length_dropLast, List.length_map] at hi
        omega
      simp only [List.get_eq_getElem, List.getElem_dropLast, List.getElem_map]
      have := hinv.1 i hi2
      simpa using this
    · exact hhead
  · have h1 : (parseContent F).1
        = (pstate (fileLines F)).messages
            ++ [⟨Role.user, trimEndNl (pstate (fileLines F)).current⟩] := by
      simp [parseContent, parseLines, he]
    rw [h1]
    constructor
    · rw [List.map_append]
      rw [show List.map Msg.role [⟨Role.user, trimEndNl (pstate (fileLines F)).current⟩]
          = [Role.user] from rfl]
      rw [List.dropLast_concat]
      exact hAdjMsgs
    · cases hm : (pstate (fileLines F)).messages with
      | nil => rfl
      | cons m t =>
        rw [hm] at hhead
        cases hr : m.role with
        | user => simp [List.cons_append, headIsUser, hr]
        | assistant => simp [headIsUser, hr] at hhead

/-! ## C6: content preservation -/

theorem exists_not_ws_of_trim_ne_nil {l : List Char} (h : trim l ≠ []) :
    ∃ c ∈ l, c.isWhitespace = false := by
  by_contra hno
  push_neg at hno
  apply h
  apply trim_eq_nil_iff.mpr
  intro c hc
  have := hno c hc
  simpa using this

theorem getLastD_mem {L : List (List Char)} (h : L ≠ []) : L.getLastD [] ∈ L := by
  rw [List.getLastD_eq_getLast?]
  cases hg : L.getLast? with
  | none => exact absurd (List.getLast?_eq_none_iff.mp hg) h
  | some a => simpa using List.mem_of_mem_getLast? (by simp [hg])

theorem nl_not_mem_fileLines {F l : List Char} (hl : l ∈ fileLines F) : '\n' ∉ l := by
  simp only [fileLines] at hl
  rcases List.mem_append.mp hl with hm | hm
  · obtain ⟨l2, hl2, rfl⟩ := List.mem_map.mp hm
    have hseg : l2 ∈ splitNl F := (List.dropLast_sublist _).mem hl2
    intro hmem
    have hmem2 : '\n' ∈ l2 := by
      unfold rstripCR at hmem
      by_cases hcr : l2.getLast? = some '\r'
      · rw [if_pos hcr] at hmem
        exact (List.dropLast_sublist l2).mem hmem
      · rwa [if_neg hcr] at hmem
    exact nl_not_mem_splitNl F l2 hseg hmem2
  · by_cases hc : (splitNl F).getLastD [] = []
    · rw [if_pos hc] at hm
      simp at hm
    · rw [if_neg hc] at hm
      have hleq : l = (splitNl F).getLastD [] := by simpa using hm
      subst hleq
      exact nl_not_mem_splitNl F _ (getLastD_mem (splitNl_ne_nil F))

/-- Invariant for C6: every non-delimiter line with non-whitespace content
seen so far is an infix of a committed content or of the current buffer. -/
def InvC6 (acc : List (List Char)) (s : PState) : Prop :=
  ∀ l ∈ acc, trim l ≠ DELIMITER → trim l ≠ [] → '\n' ∉ l →
    (∃ m ∈ s.messages, l <:+: m.content) ∨ l <:+: s.current

theorem invC6_step (acc : List (List Char)) (s : PState) (l0 : List Char)
    (h : InvC6 acc s) : InvC6 (acc ++ [l0]) (processLine s l0) := by
  intro l hl hd hne hn
  have hlne : l ≠ [] := fun h0 => hne (by rw [h0]; rfl)
  unfold processLine
  by_cases hd0 : trim l0 = DELIMITER
  · rw [if_pos hd0]
    rcases List.mem_append.mp hl with hm | hm
    · by_cases he : (trim s.current).isEmpty
      · rw [if_pos he]
        exact h l hm hd hne hn
      · rw [if_neg he]
        rcases h l hm hd hne hn with ⟨m, hmm, hinf⟩ | hcur
        · exact Or.inl ⟨m, List.mem_append_left _ hmm, hinf⟩
        · refine Or.inl ⟨⟨if s.is_user then Role.user else Role.assistant, trimEndNl s.current⟩,
            List.mem_append_right _ (List.mem_singleton_self _), ?_⟩
          exact infix_trimEndNl hcur hn hlne
    · have : l = l0 := by simpa using hm
      subst this
      exact absurd hd0 hd
  · rw [if_neg hd0]
    rcases List.mem_append.mp hl with hm | hm
    · rcases h l hm hd hne hn with ⟨m, hmm, hinf⟩ | hcur
      · exact Or.inl ⟨m, hmm, hinf⟩
      · refine Or.inr (hcur.trans ?_)
        rw [List.append_assoc]
        exact (List.prefix_append s.current (l0 ++ ['\n'])).isInfix
    · have : l = l0 := by simpa using hm
      subst this
      exact Or.inr ⟨s.current, ['\n'], by simp⟩

theorem invC6_fold : ∀ (ls acc : List (List Char)) (s : PState),
    InvC6 acc s → InvC6 (acc ++ ls) (ls.foldl processLine s) := by
  intro ls
  induction ls with
  | nil =>
    intro acc s h
    simpa using h
  | cons l0 rest ih =>
    intro acc s h
    have h3 := ih (acc ++ [l0]) (processLine s l0) (invC6_step acc s l0 h)
    simpa [List.append_assoc] using h3

/-- C6 (amended): no non-whitespace content is dropped by the parser: every
line of the file that is not a delimiter line and is not whitespace-only
appears as a contiguous substring of some parsed turn's content.  (What IS
dropped: the exact delimiter lines, ALL trailing newline characters of each
committed block — `trim_end_matches('\n')` strips every one, not just one —
and trailing whitespace-only content.) -/
theorem c6_no_drop_amended (F l : List Char) (hl : l ∈ fileLines F)
    (hd : trim l ≠ DELIMITER) (hne : trim l ≠ []) :
    ∃ m ∈ (parseContent F).1, l <:+: m.content := by
  have hn : '\n' ∉ l := nl_not_mem_fileLines hl
  have hinv : InvC6 (fileLines F) (pstate (fileLines F)) := by
    have h0 : InvC6 [] initPS := by intro l2 hl2 _ _ _; simp at hl2
    have := invC6_fold (fileLines F) [] initPS h0
    simpa using this
  have hdisj := hinv l hl hd hne hn
  by_cases he : (trim (pstate (fileLines F)).current).isEmpty
  · rcases hdisj with ⟨m, hm, hinf⟩ | hcur
    · refine ⟨m, ?_, hinf⟩
      have h1 : (parseContent F).1 = (pstate (fileLines F)).messages := by
        simp [parseContent, parseLines, he]
      rw [h1]
      exact hm
    · exfalso
      obtain ⟨c, hc, hcw⟩ := exists_not_ws_of_trim_ne_nil hne
      have hc2 : c ∈ (pstate (fileLines F)).current := hcur.subset hc
      exact trim_ne_nil_of_mem hc2 hcw (List.isEmpty_iff.mp he)
  · have h1 : (parseContent F).1
        = (pstate (fileLines F)).messages
            ++ [⟨Role.user, trimEndNl (pstate (fileLines F)).current⟩] := by
      simp [parseContent, parseLines, he]
    rcases hdisj with ⟨m, hm, hinf⟩ | hcur
    · refine ⟨m, ?_, hinf⟩
      rw [h1]
      exact List.mem_append_left _ hm
    · refine ⟨⟨Role.user, trimEndNl (pstate (fileLines F)).current⟩, ?_, ?_⟩
      · rw [h1]
        exact List.mem_append_right _ (List.mem_singleton_self _)
      · exact infix_trimEndNl hcur hn (fun h0 => hne (by rw [h0]; rfl))

theorem c6_no_drop_amended_witness :
    (strL ("hi")) ∈ fileLines (strL ("hi\n"))
      ∧ trim (strL ("hi")) ≠ DELIMITER
      ∧ trim (strL ("hi")) ≠ []
      ∧ ∃ m ∈ (parseContent (strL ("hi\n"))).1, (strL ("hi")) <:+: m.content :=
  ⟨by decide, by decide, by decide,
    c6_no_drop_amended (strL ("hi\n")) (strL ("hi")) (by decide) (by decide) (by decide)⟩

/-! ## C8: the opening delimiter append -/

theorem fileLines_append_of_nl (A G : List Char) :
    fileLines (A ++ '\n' :: G) = (splitNl A).map rstripCR ++ fileLines G := by
  obtain ⟨s, ss, hs⟩ := splitNl_dest G
  simp only [fileLines, splitNl_append_nl, hs]
  have hlast : (splitNl A ++ s :: ss).getLastD [] = (s :: ss).getLastD [] := by
    rw [List.getLastD_eq_getLast?, List.getLastD_eq_getLast?, List.getLast?_append]
    cases hg : (s :: ss).getLast? with
    | none => exact absurd (List.getLast?_eq_none_iff.mp hg) (by simp)
    | some a => simp
  rw [hlast]
  rw [List.dropLast_append_of_ne_nil _ (by simp : s :: ss ≠ [])]
  rw [List.map_append, List.append_assoc]

theorem getLast_append_delim (lastL : List Char) :
    (lastL ++ DELIMITER).getLast? = some '=' := by
  rw [List.getLast?_append]
  rw [show DELIMITER.getLast? = some '=' from by decide]
  simp

theorem map_rstripCR_line_delim {lastL : List Char} (hnl : '\n' ∉ lastL) :
    (splitNl (lastL ++ DELIMITER)).map rstripCR = [lastL ++ DELIMITER] := by
  have hno : '\n' ∉ lastL ++ DELIMITER := by
    intro hmem
    rcases List.mem_append.mp hmem with hm | hm
    · exact hnl hm
    · revert hm; decide
  rw [splitNl_no_nl hno]
  simp only [List.map_cons, List.map_nil]
  rw [rstripCR_eq_self (by rw [getLast_append_delim]; decide)]

theorem fileLines_nil : fileLines [] = [] := rfl

theorem sessionFile_pending (F : List Char) (chunks : List Chunk)
    (hp : (parseContent F).2 = true) :
    sessionFile F chunks = F ++ (runSession true chunks).fileAppend := by
  simp [sessionFile, hp]

/-- C8 (confirmed): when `pendingUserTurn` is true, the bytes appended before
anything else are exactly the marker string followed by a newline, with no
separating newline first (the source's separating `writeln!` is commented
out); in particular when the existing content does not end in a newline, its
last line and the marker merge into the single line `<lastL>===`. -/
theorem c8_delimiter_append (F : List Char) (chunks : List Chunk)
    (hp : (parseContent F).2 = true) :
    (∃ rest, sessionFile F chunks = F ++ ((DELIMITER ++ ['\n']) ++ rest))
      ∧ ∀ F1 lastL, F = F1 ++ lastL → (F1 = [] ∨ F1.getLast? = some '\n') →
          '\n' ∉ lastL → lastL ≠ [] →
          ∃ restLines, fileLines (sessionFile F chunks)
            = fileLines F1 ++ (lastL ++ DELIMITER) :: restLines := by
  have hsf : sessionFile F chunks = F ++ (runSession true chunks).fileAppend :=
    sessionFile_pending F chunks hp
  have hfa : (runSession true chunks).fileAppend
      = (DELIMITER ++ ['\n'])
          ++ ((drain chunks).1
              ++ (if (drain chunks).2.2 then '\n' :: (DELIMITER ++ ['\n']) else [])) := by
    simp [runSession, List.append_assoc]
  constructor
  · exact ⟨_, by rw [hsf, hfa]⟩
  · intro F1 lastL hF hF1 hnl hlne
    have hfile : sessionFile F chunks
        = F1 ++ ((lastL ++ DELIMITER)
            ++ '\n' :: ((drain chunks).1
              ++ (if (drain chunks).2.2 then '\n' :: (DELIMITER ++ ['\n']) else []))) := by
      rw [hsf, hfa, hF]
      simp [List.append_assoc]
    rw [hfile]
    rcases hF1 with h1 | h1
    · subst h1
      refine ⟨fileLines ((drain chunks).1
          ++ (if (drain chunks).2.2 then '\n' :: (DELIMITER ++ ['\n']) else [])), ?_⟩
      simp only [List.nil_append, fileLines_nil]
      rw [fileLines_append_of_nl, map_rstripCR_line_delim hnl]
      simp
    · obtain ⟨A, hA⟩ := List.getLast?_eq_some_iff.mp h1
      refine ⟨fileLines ((drain chunks).1
          ++ (if (drain chunks).2.2 then '\n' :: (DELIMITER ++ ['\n']) else [])), ?_⟩
      rw [hA]
      rw [show (A ++ ['\n']) ++ ((lastL ++ DELIMITER)
            ++ '\n' :: ((drain chunks).1
              ++ (if (drain chunks).2.2 then '\n' :: (DELIMITER ++ ['\n']) else [])))
          = A ++ '\n' :: ((lastL ++ DELIMITER)
            ++ '\n' :: ((drain chunks).1
              ++ (if (drain chunks).2.2 then '\n' :: (DELIMITER ++ ['\n']) else []))) from by
        simp]
      rw [fileLines_append_of_nl, fileLines_append_of_nl, map_rstripCR_line_delim hnl,
        fileLines_nl_terminated]
      simp

theorem c8_delimiter_append_witness :
    (parseContent (strL ("hi"))).2 = true
      ∧ (∃ rest, sessionFile (strL ("hi")) [] = strL ("hi") ++ ((DELIMITER ++ ['\n']) ++ rest))
      ∧ ∃ restLines, fileLines (sessionFile (strL ("hi")) [])
          = fileLines [] ++ (strL ("hi") ++ DELIMITER) :: restLines :=
  ⟨by decide,
    (c8_delimiter_append (strL ("hi")) [] (by decide)).1,
    (c8_delimiter_append (strL ("hi")) [] (by decide)).2 [] (strL ("hi")) rfl (Or.inl rfl)
      (by decide) (by decide)⟩

/-! ## C5: round-trip of a successful session -/

theorem pstate_append (a b : List (List Char)) :
    pstate (a ++ b) = b.foldl processLine (pstate a) := by
  simp [pstate, List.foldl_append]

/-- C5 (amended): for a fully successful session — every chunk is text, the
concatenated fragments have non-whitespace content, contain no carriage
return and no line that trims to the delimiter — run against a file that ends
in a newline with a pending user turn, re-parsing the produced file yields
`pendingUserTurn = false` and the input turns plus one Assistant turn whose
content is the concatenated fragments with ALL trailing newlines stripped
(`trim_end_matches('\n')`), not just a single one. -/
theorem c5_roundtrip_amended (F : List Char) (chunks : List Chunk)
    (hnlF : F.getLast? = some '\n')
    (hok : ∀ c ∈ chunks, isOkChunk c = true)
    (hp : (parseContent F).2 = true)
    (htrim : trim ((chunks.map textOf).flatten) ≠ [])
    (hnr : '\r' ∉ (chunks.map textOf).flatten)
    (hnd : ∀ l ∈ splitNl ((chunks.map textOf).flatten), trim l ≠ DELIMITER) :
    parseContent (sessionFile F chunks)
      = ((parseContent F).1
          ++ [⟨Role.assistant, trimEndNl ((chunks.map textOf).flatten)⟩], false) := by
  obtain ⟨A, hA⟩ := List.getLast?_eq_some_iff.mp hnlF
  obtain ⟨he, hu, hfst⟩ := parseLines_pending_unfold (fileLines F) hp
  have hfl : (chunks.map textOf).flatten ≠ [] := fun h => htrim (by rw [h]; rfl)
  have hsf : sessionFile F chunks
      = A ++ '\n' :: (DELIMITER ++ '\n' :: ((chunks.map textOf).flatten
          ++ '\n' :: (DELIMITER ++ ['\n']))) := by
    rw [sessionFile_pending F chunks hp, runSession_all_ok hok hfl true, hA]
    simp [List.append_assoc]
  have hmapfr : (splitNl ((chunks.map textOf).flatten)).map rstripCR
      = splitNl ((chunks.map textOf).flatten) := by
    have h1 : ∀ l ∈ splitNl ((chunks.map textOf).flatten), rstripCR l = id l := by
      intro l hl
      exact rstripCR_of_not_mem (fun hr => hnr (mem_splitNl_sub _ l hl '\r' hr))
    rw [List.map_congr_left h1, List.map_id]
  have hlines : fileLines (sessionFile F chunks)
      = fileLines F
          ++ DELIMITER :: (splitNl ((chunks.map textOf).flatten) ++ [DELIMITER]) := by
    rw [hsf, fileLines_append_of_nl, fileLines_append_of_nl, fileLines_append_of_nl,
      fileLines_nl_terminated, hA, fileLines_nl_terminated, hmapfr,
      show (splitNl DELIMITER).map rstripCR = [DELIMITER] from by decide]
    simp
  have hs2 : processLine (pstate (fileLines F)) DELIMITER
      = ⟨(pstate (fileLines F)).messages
          ++ [⟨Role.user, trimEndNl (pstate (fileLines F)).current⟩], [], false⟩ := by
    rw [processLine_delim_commit _ (by decide) he, hu]
    simp
  have hs3 : (splitNl ((chunks.map textOf).flatten)).foldl processLine
      (⟨(pstate (fileLines F)).messages
          ++ [⟨Role.user, trimEndNl (pstate (fileLines F)).current⟩], [], false⟩ : PState)
      = ⟨(pstate (fileLines F)).messages
          ++ [⟨Role.user, trimEndNl (pstate (fileLines F)).current⟩],
         (chunks.map textOf).flatten ++ ['\n'], false⟩ := by
    rw [fold_nodelim _ _ hnd]
    rw [show joinNlMap (splitNl ((chunks.map textOf).flatten))
        = (chunks.map textOf).flatten ++ ['\n'] from join_splitNl _]
    simp
  have hs4 : processLine
      (⟨(pstate (fileLines F)).messages
          ++ [⟨Role.user, trimEndNl (pstate (fileLines F)).current⟩],
         (chunks.map textOf).flatten ++ ['\n'], false⟩ : PState) DELIMITER
      = ⟨((pstate (fileLines F)).messages
          ++ [⟨Role.user, trimEndNl (pstate (fileLines F)).current⟩])
          ++ [⟨Role.assistant, trimEndNl ((chunks.map textOf).flatten)⟩], [], true⟩ := by
    rw [processLine_delim_commit _ (by decide)
      (show (trim ((chunks.map textOf).flatten ++ ['\n'])).isEmpty = false from by
        rw [trim_append_nl]
        exact List.isEmpty_eq_false.mpr htrim)]
    rw [show trimEndNl ((chunks.map textOf).flatten ++ ['\n'])
        = trimEndNl ((chunks.map textOf).flatten) from trimEndNl_append_nl _]
    simp
  have hps : pstate (fileLines (sessionFile F chunks))
      = ⟨((pstate (fileLines F)).messages
          ++ [⟨Role.user, trimEndNl (pstate (fileLines F)).current⟩])
          ++ [⟨Role.assistant, trimEndNl ((chunks.map textOf).flatten)⟩], [], true⟩ := by
    rw [hlines, pstate_append, List.foldl_cons, hs2, List.foldl_append, hs3,
      List.foldl_cons, List.foldl_nil, hs4]
  have hres : parseContent (sessionFile F chunks)
      = (((pstate (fileLines F)).messages
          ++ [⟨Role.user, trimEndNl (pstate (fileLines F)).current⟩])
          ++ [⟨Role.assistant, trimEndNl ((chunks.map textOf).flatten)⟩], false) := by
    show parseLines (fileLines (sessionFile F chunks)) = _
    unfold parseLines
    rw [hps]
    simp [show trim ([] : List Char) = [] from rfl]
  rw [hres]
  have hfst2 : (parseContent F).1
      = (pstate (fileLines F)).messages
          ++ [⟨Role.user, trimEndNl (pstate (fileLines F)).current⟩] := hfst
  rw [hfst2]

theorem c5_roundtrip_amended_witness :
    (strL ("q\n")).getLast? = some '\n'
      ∧ (∀ c ∈ [Chunk.ok (strL ("4"))], isOkChunk c = true)
      ∧ (parseContent (strL ("q\n"))).2 = true
      ∧ trim (([Chunk.ok (strL ("4"))].map textOf).flatten) ≠ []
      ∧ '\r' ∉ ([Chunk.ok (strL ("4"))].map textOf).flatten
      ∧ (∀ l ∈ splitNl (([Chunk.ok (strL ("4"))].map textOf).flatten), trim l ≠ DELIMITER)
      ∧ parseContent (sessionFile (strL ("q\n")) [Chunk.ok (strL ("4"))])
          = ((parseContent (strL ("q\n"))).1
              ++ [⟨Role.assistant, trimEndNl (([Chunk.ok (strL ("4"))].map textOf).flatten)⟩],
             false) :=
  ⟨by decide, by decide, by decide, by decide, by decide, by decide,
    c5_roundtrip_amended (strL ("q\n")) [Chunk.ok (strL ("4"))]
      (by decide) (by decide) (by decide) (by decide) (by decide) (by decide)⟩

theorem c10_whitespace_starts_witness :
    (∀ c ∈ [Chunk.ok (strL (" "))], isOkChunk c = true)
      ∧ (∃ c ∈ [Chunk.ok (strL (" "))], textOf c ≠ [])
      ∧ ((runSession false [Chunk.ok (strL (" "))]).started = true
          ∧ ∃ pre, (runSession false [Chunk.ok (strL (" "))]).fileAppend
              = pre ++ '\n' :: (DELIMITER ++ ['\n'])) :=
  ⟨by decide, by decide,
    c10_whitespace_starts false [Chunk.ok (strL (" "))] (by decide) (by decide)⟩
